import Mathlib

/-!
Verification of the 2-7 lowball hand evaluator of the `poker` package.

The Go sources are embedded shallowly:
* `Card`, `cardRank`, `cardSuit` follow `card.go` (a card is a number whose
  bottom two bits are the suit, the next four bits the rank minus one).
* `evalSlow27`, `SortCards`, `Eval27` follow the newer `deuce_seven.go`
  (the file with the Ace re-accumulation pass).
* `perfectHash`, `pow`, `initDeuce7Table`, `Eval27Fast` follow the
  table-construction file.
Helpers whose bodies are not part of the snapshot (`isFlush`, `poptop`,
`evalScore5`, the `slowRankToPacked` array) are modelled from the spec and
say so in their doc comments; the packed-score array is kept as an explicit
function parameter `pack` everywhere.

Go arrays are embedded as functions `Nat → _` updated with
`Function.update`; Go's `uint16` bit masks are embedded as `Nat` (all masks
that arise stay below `2 ^ 13`, so no wrap-around is dropped); the one
`uint32` accumulator in `perfectHash` is embedded as `Nat` (its maximum
possible value, `63 * (1 + 53 + 53^2 + 53^3 + 53^4) < 2^29`, cannot wrap).
The global mutable lookup table is passed explicitly: `none` is the state
before `initDeuce7Table` ran, `some t` the state after it completed.
-/

namespace Poker

/-- A playing card as in the Go source: a number from 0 to 51 whose bottom
two bits are the suit and whose next four bits are the rank minus one. -/
abbrev Card := Nat

/-- Rank of a card, `(int(c>>2) & 15) + 1` in the Go source: Ace is 1,
King is 13. -/
def cardRank (c : Card) : Nat := (c / 4) % 16 + 1

/-- Suit of a card, `c & 3` in the Go source. -/
def cardSuit (c : Card) : Nat := c % 4

/-- Modelled from the spec: `isFlush` is called by `evalSlow27` but its body
is not in this snapshot; section 4.1 of the spec defines the flush test as
"true iff all 5 cards share a suit". -/
def isFlush : List Card → Bool
  | [] => true
  | x :: xs => xs.all fun y => cardSuit y == cardSuit x

/-- The highest set bit of a 16-bit mask (0 for an empty mask): the largest
`b < 16` with `x.testBit b`. -/
def topBit (x : Nat) : Nat :=
  (List.range 16).foldl (fun acc b => if x.testBit b then b else acc) 0

/-- Modelled from the spec: `poptop` is called by `evalSlow27` but its body
is not in this snapshot; section 4.1 of the spec describes it as popping
"the highest set bit from the relevant bucket bitmask".  It returns the
popped bit position and the mask with that bit cleared; on an empty mask it
returns `(0, 0)` (the evaluator never pops an empty mask). -/
def poptop (x : Nat) : Nat × Nat :=
  if x = 0 then (0, 0) else (topBit x, x - 2 ^ topBit x)

/-- The classification result of `evalSlow27`.  The Go `eval` struct also
carries a description string used only by the debug text mode, which no
claim touches; only the comparable ordinal `rank` is embedded. -/
structure eval where
  rank : Nat
  deriving DecidableEq

/-- Modelled from the spec: `evalScore5` is called by `evalSlow27` but its
body is not in this snapshot; section 4.2 of the spec requires a "stable
raw ordinal" in which the category dominates and the tie-break ranks are
compared lexicographically most-significant first.  Base 16 accommodates
every digit the evaluator produces (categories up to 9, ranks up to 14). -/
def evalScore5 (k a b c d e : Nat) : eval :=
  ⟨((((k * 16 + a) * 16 + b) * 16 + c) * 16 + d) * 16 + e⟩

/-- The scratch state of one `evalSlow27` call: the Go locals
`ranks [13]int`, `dupes [6]int`, `rankBits [6]uint16`, `str8s [13]int`,
`str8top int`. -/
@[ext]
structure St where
  ranks : Nat → Nat
  dupes : Nat → Int
  rankBits : Nat → Nat
  str8s : Nat → Nat
  str8top : Nat

/-- The all-zero initial state of the Go locals. -/
def st0 : St :=
  ⟨fun _ => 0, fun _ => 0, fun _ => 0, fun _ => 0, 0⟩

/-- One card's rank-multiplicity accounting, the Go lines
`rankBits[ranks[rawr]] |= 1 << rawr; ranks[rawr]++;
dupes[ranks[rawr]]++; dupes[ranks[rawr]-1]--`. -/
def bucketAdd (s : St) (rawr : Nat) : St :=
  let n := s.ranks rawr
  { s with
    ranks := Function.update s.ranks rawr (n + 1)
    dupes := Function.update
      (Function.update s.dupes (n + 1) (s.dupes (n + 1) + 1)) n
      (Function.update s.dupes (n + 1) (s.dupes (n + 1) + 1) n - 1)
    rankBits := Function.update s.rankBits n (s.rankBits n ||| (1 <<< rawr)) }

/-- The straight-window index taken by the Go loop body for a card of
converted rank `cr` at rotational offset `i`:
`((cr - 1) + i) % 13` for a non-Ace, `(13 + i) % 13` for the Ace
(`cr == 14`). -/
def str8Idx (cr i : Nat) : Nat :=
  if cr ≠ 14 then (cr - 1 + i) % 13 else (13 + i) % 13

/-- One iteration of the Go straight-window loop:
`str8s[idx] |= 1 << i; if str8s[idx] == 31 && idx >= 5 { str8top = ... }`. -/
def str8Step (cr : Nat) (p : (Nat → Nat) × Nat) (i : Nat) : (Nat → Nat) × Nat :=
  let idx := str8Idx cr i
  let s := Function.update p.1 idx (p.1 idx ||| (1 <<< i))
  (s, if s idx = 31 ∧ 5 ≤ idx then (idx + 12) % 13 + 1 else p.2)

/-- The full five-offset straight-window loop for one card. -/
def str8Add (s : St) (cr : Nat) : St :=
  let p := [0, 1, 2, 3, 4].foldl (str8Step cr) (s.str8s, s.str8top)
  { s with str8s := p.1, str8top := p.2 }

/-- The converted rank of the first pass: `cr := (int(ci>>2)&15) + 1`,
then an Ace (`cr == 1`) is treated as 14, "higher than King". -/
def crOf (ci : Card) : Nat :=
  if cardRank ci = 1 then 14 else cardRank ci

/-- The rank index of the first pass: `rawr := (cr + 11) % 13`. -/
def rawr1Of (ci : Card) : Nat := (crOf ci + 11) % 13

/-- The body of the first `for _, ci := range c` loop of `evalSlow27`:
rank-multiplicity accounting at `rawr = (cr + 11) % 13` followed by the
straight-window loop. -/
def step1 (s : St) (ci : Card) : St :=
  str8Add (bucketAdd s (rawr1Of ci)) (crOf ci)

/-- The rank index of the Ace re-accumulation pass: an Ace goes to slot 12,
every other card to `cr - 1`. -/
def rawr2Of (ci : Card) : Nat :=
  if cardRank ci = 1 then 12 else cardRank ci - 1

/-- The Go lines `ranks = [13]int{}; dupes = [6]int{}; rankBits = [6]uint16{}`
that clear the multiplicity accounting (but not the straight state) before
the Ace re-accumulation pass. -/
def resetCounts (s : St) : St :=
  { s with ranks := fun _ => 0, dupes := fun _ => 0, rankBits := fun _ => 0 }

/-- The scratch state of `evalSlow27` after both accumulation passes: the
first pass over all cards, then — when an Ace is present — the
re-accumulation pass at the `rawr2Of` slots over cleared counters. -/
def classifyState (c : List Card) : St :=
  if c.any fun ci => cardRank ci == 1 then
    c.foldl (fun s ci => bucketAdd s (rawr2Of ci)) (resetCounts (c.foldl step1 st0))
  else c.foldl step1 st0

/-- The disjoint per-multiplicity masks, the Go lines
`rankBits[k] &^= rankBits[k+1]` for `k = 0..4` (each line reads the next
bucket before that bucket is itself masked). -/
def maskedBits (s : St) (j : Nat) : Nat :=
  if j < 5 then (s.rankBits j) ^^^ ((s.rankBits j) &&& (s.rankBits (j + 1)))
  else s.rankBits j

/-- The category-decision chain of `evalSlow27` (text mode dropped; it only
formats a description string).  `len` is the hand's length, `flush` its
flush test, `s` the accumulated scratch state; `replace` the kicker-keeping
flag. -/
def evalBranches (len : Nat) (flush replace : Bool) (s : St) : Except String eval :=
  let rb := maskedBits s
  if flush = false ∧ s.str8top = 0 ∧ s.dupes 1 = (len : Int) then
    let (a, m) := poptop (rb 0)
    let (b, m) := poptop m
    let (c2, m) := poptop m
    let (d, m) := poptop m
    let (e, _) := poptop m
    .ok (evalScore5 0 a b c2 d e)
  else if s.dupes 2 = 1 ∧ s.dupes 3 = 0 then
    let (p, _) := poptop (rb 1)
    let (a, m) := poptop (rb 0)
    let (b, m) := poptop m
    let (c2, _) := poptop m
    .ok (evalScore5 1 p a b c2 0)
  else if s.dupes 2 = 2 then
    let (p, m1) := poptop (rb 1)
    let (q, _) := poptop m1
    let (a, _) := poptop (rb 0)
    .ok (evalScore5 2 p q a 0 0)
  else if s.dupes 3 = 1 ∧ s.dupes 2 = 0 then
    if replace then
      let (a, m) := poptop (rb 0)
      let (b, _) := poptop m
      let (t, _) := poptop (rb 2)
      .ok (evalScore5 3 t a b 0 0)
    else
      let (t, _) := poptop (rb 2)
      .ok (evalScore5 3 t 0 0 0 0)
  else if s.str8top ≠ 0 ∧ flush = false then
    .ok (evalScore5 4 ((s.str8top + 11) % 13 + 2) 0 0 0 0)
  else if flush = true ∧ s.str8top = 0 then
    let (a, m) := poptop (rb 0)
    let (b, m) := poptop m
    let (c2, m) := poptop m
    let (d, m) := poptop m
    let (e, _) := poptop m
    .ok (evalScore5 5 a b c2 d e)
  else if s.dupes 2 = 1 ∧ s.dupes 3 = 1 then
    let (t, _) := poptop (rb 2)
    let (p, _) := poptop (rb 1)
    if replace then .ok (evalScore5 6 t p 0 0 0)
    else .ok (evalScore5 6 t 0 0 0 0)
  else if s.dupes 4 = 1 then
    let (q, _) := poptop (rb 3)
    let (a, _) := poptop (rb 0)
    if replace then .ok (evalScore5 7 q a 0 0 0)
    else .ok (evalScore5 7 q 0 0 0 0)
  else if s.str8top ≠ 0 ∧ flush = true then
    .ok (evalScore5 8 ((s.str8top + 11) % 13 + 2) 0 0 0 0)
  else if s.dupes 5 = 1 then
    let (q, _) := poptop (rb 4)
    .ok (evalScore5 9 q 0 0 0 0)
  else .error "failed to eval hand"

/-- `evalSlow27`: the length guard, then the category decision over the
flush test and the accumulated state. -/
def evalSlow27 (c : List Card) (replace : Bool) : Except String eval :=
  if c.length ≠ 5 then .error "evalSlow27: need 5 cards"
  else evalBranches c.length (isFlush c) replace (classifyState c)

/-- The Go `sort.Slice` comparator of `SortCards`: card `a` comes before
card `b` when its Ace-high rank is larger, with the suit breaking ties. -/
def cardBefore (a b : Card) : Bool :=
  let ra := if cardRank a = 1 then 14 else cardRank a
  let rb := if cardRank b = 1 then 14 else cardRank b
  if ra ≠ rb then decide (rb < ra) else decide (cardSuit b < cardSuit a)

/-- Insertion of one card into a list already sorted by `cardBefore`. -/
def insertCard (a : Card) : List Card → List Card
  | [] => [a]
  | b :: l => if cardBefore b a then b :: insertCard a l else a :: b :: l

/-- `SortCards` sorts cards in descending Ace-high rank order (suit breaking
ties).  `sort.Slice` is embedded as an insertion sort under the Go
comparator; on valid cards the comparator is a strict total order, so any
correct sort produces this unique result. -/
def SortCards (cards : List Card) : List Card :=
  cards.foldr insertCard []

/-- The Go helper `pow`: iterated multiplication. -/
def pow (base exp : Nat) : Nat :=
  (List.range exp).foldl (fun r _ => r * base) 1

/-- The positional polynomial hash of the table file:
`val += (rank*4 + suit) * pow(53, i)` over the hand's positions, reduced
`mod 7462`. -/
def perfectHash (cards : List Card) : Nat :=
  (cards.enum.foldl
    (fun val p => val + ((p.2 / 4) % 16 * 4 + p.2 % 4) * pow 53 p.1) 0) % 7462

/-- The table lookup of `Eval27Fast` once the table `t` exists: sort a copy
of the hand and index the table by its hash. -/
def Eval27FastWith (t : Nat → Int) (hand : List Card) : Int :=
  t (perfectHash (SortCards hand))

/-- `Eval27` of the newer `deuce_seven.go`, with the global table state and
the `slowRankToPacked` array passed explicitly: with a table it looks up the
fast path, without one it falls back to the slow evaluator and maps any
evaluation error to the score 0 (`return 0 // Or some error value`). -/
def Eval27 (tbl : Option (Nat → Int)) (pack : Nat → Int) (hand : List Card) : Int :=
  match tbl with
  | some t => Eval27FastWith t hand
  | none =>
    match evalSlow27 hand true with
    | .error _ => 0
    | .ok ev => pack ev.rank

/-- Innermost loop of `initDeuce7Table`: `for m := l+1; m < 52; m++`. -/
def loop5 (i j k l : Nat) : List (List Card) :=
  (List.range' (l + 1) (51 - l)).map fun m => [i, j, k, l, m]

/-- Fourth loop of `initDeuce7Table`: `for l := k+1; l < 52; l++`. -/
def loop4 (i j k : Nat) : List (List Card) :=
  (List.range' (k + 1) (51 - k)).flatMap (loop5 i j k)

/-- Third loop of `initDeuce7Table`: `for k := j+1; k < 52; k++`. -/
def loop3 (i j : Nat) : List (List Card) :=
  (List.range' (j + 1) (51 - j)).flatMap (loop4 i j)

/-- Second loop of `initDeuce7Table`: `for j := i+1; j < 52; j++`. -/
def loop2 (i : Nat) : List (List Card) :=
  (List.range' (i + 1) (51 - i)).flatMap (loop3 i)

/-- The full enumeration order of `initDeuce7Table`'s five nested ascending
loops over the 52-card deck. -/
def combos5 : List (List Card) :=
  (List.range 52).flatMap loop2

/-- One loop body of `initDeuce7Table`: sort a copy of the combination,
evaluate it with the slow path, hash the sorted hand and store the packed
score.  Each of the Go `panic` calls is modelled as `none`: a failed
evaluation, a hash outside the table, or a packed score of zero. -/
def buildStep (pack : Nat → Int) (acc : Option (Nat → Int)) (hand : List Card) :
    Option (Nat → Int) :=
  acc.bind fun tbl =>
    let sorted := SortCards hand
    match evalSlow27 sorted true with
    | .error _ => none
    | .ok ev =>
      let idx := perfectHash sorted
      if 7462 ≤ idx then none
      else
        let s := pack ev.rank
        if s = 0 then none
        else some (Function.update tbl idx s)

/-- `initDeuce7Table`: a 7462-slot table filled with the sentinel -1, one
write per enumerated combination, then the sweep that `panic`s (here:
`none`) when any slot still holds the sentinel. -/
def initDeuce7Table (pack : Nat → Int) : Option (Nat → Int) :=
  (combos5.foldl (buildStep pack) (some fun _ => -1)).bind fun t =>
    if (List.range 7462).all (fun i => t i != -1) then some t else none

/-! ## Concrete hands used in the claim theorems

Card numbers: `HA = 2`, `DA = 1`, `CA = 0`, `CT = 36`, `S2 = 7`, `H3 = 10`,
`D2 = 5`, `C2 = 4`, `H2 = 6`, `C3 = 8`, `S4 = 15`, `H5 = 18`, `C4 = 12`,
`CK = 48`, `HK = 50`, `H4 = 14`, `S6 = 23`, `DT = 37`, `HJ = 42`, `CQ = 44`,
`SK = 51`, `H7 = 26`, `C7 = 24`, `D4? = 13`. -/

/-- C1: the claim that `Eval27Fast` agrees with the slow path on every
5-card hand is false.  The sorted hands `HA DA CA CT S2` (trip aces,
ordinal `evalScore5 3 12 9 1 0 0`) and `DA CA H3 D2 C2` (two pair, ordinal
`evalScore5 2 12 1 2 0 0`) hash to the same bucket 1554, so whatever the
table holds there, the fast path returns the same score for both hands
while any injective packing of their distinct slow ordinals differs: no
table can agree with the slow path on both hands, and the repository's own
`TestDeuce7TableCompleteness` consistency sweep must fail. -/
theorem c1_fast_table_aliasing :
    SortCards [2, 1, 0, 36, 7] = [2, 1, 0, 36, 7] ∧
    SortCards [1, 0, 10, 5, 4] = [1, 0, 10, 5, 4] ∧
    perfectHash (SortCards [2, 1, 0, 36, 7]) = 1554 ∧
    perfectHash (SortCards [1, 0, 10, 5, 4]) = 1554 ∧
    evalSlow27 (SortCards [2, 1, 0, 36, 7]) true = .ok (evalScore5 3 12 9 1 0 0) ∧
    evalSlow27 (SortCards [1, 0, 10, 5, 4]) true = .ok (evalScore5 2 12 1 2 0 0) ∧
    ∀ t : Nat → Int, ∀ pack : Nat → Int, Function.Injective pack →
      ¬(Eval27FastWith t [2, 1, 0, 36, 7] = pack (evalScore5 3 12 9 1 0 0).rank ∧
        Eval27FastWith t [1, 0, 10, 5, 4] = pack (evalScore5 2 12 1 2 0 0).rank) := by
  refine ⟨by decide, by decide, by decide, by decide, by rfl, by rfl, ?_⟩
  intro t pack hinj ⟨h1, h2⟩
  have e1 : Eval27FastWith t [2, 1, 0, 36, 7] = t 1554 :=
    congrArg t (by decide)
  have e2 : Eval27FastWith t [1, 0, 10, 5, 4] = t 1554 :=
    congrArg t (by decide)
  have : (evalScore5 3 12 9 1 0 0).rank = (evalScore5 2 12 1 2 0 0).rank :=
    hinj (by rw [← h1, ← h2, e1, e2])
  exact absurd this (by decide)

/-- C2: `perfectHash` is not a perfect hash for the scoring domain, in both
directions.  The sorted hands `HA DA CA CT S2` (trip aces) and
`DA CA H3 D2 C2` (two pair) have different slow ordinals yet share bucket
1554; the sorted hands `H7 H5 S4 C3 D2` and `C7 H5 S4 C3 D2` have the same
category and tie-break ranks (identical slow ordinals) yet land in the
distinct buckets 3712 and 3710. -/
theorem c2_perfect_hash_not_perfect :
    SortCards [2, 1, 0, 36, 7] = [2, 1, 0, 36, 7] ∧
    SortCards [1, 0, 10, 5, 4] = [1, 0, 10, 5, 4] ∧
    evalSlow27 [2, 1, 0, 36, 7] true = .ok (evalScore5 3 12 9 1 0 0) ∧
    evalSlow27 [1, 0, 10, 5, 4] true = .ok (evalScore5 2 12 1 2 0 0) ∧
    (evalScore5 3 12 9 1 0 0).rank ≠ (evalScore5 2 12 1 2 0 0).rank ∧
    perfectHash [2, 1, 0, 36, 7] = perfectHash [1, 0, 10, 5, 4] ∧
    SortCards [26, 18, 15, 8, 5] = [26, 18, 15, 8, 5] ∧
    SortCards [24, 18, 15, 8, 5] = [24, 18, 15, 8, 5] ∧
    evalSlow27 [26, 18, 15, 8, 5] true = .ok (evalScore5 0 5 3 2 1 0) ∧
    evalSlow27 [24, 18, 15, 8, 5] true = .ok (evalScore5 0 5 3 2 1 0) ∧
    perfectHash [26, 18, 15, 8, 5] = 3712 ∧
    perfectHash [24, 18, 15, 8, 5] = 3710 := by
  exact ⟨by decide, by decide, by rfl, by rfl, by decide, by decide, by decide,
    by decide, by rfl, by rfl, by decide, by decide⟩

/-- C3: the claim that a hand of five pairwise-distinct ranks always ends
the multiplicity count with `dupes 1 = 5` is false.  In the Ace
re-accumulation pass a King is mapped to `cardRank - 1 = 12`, the same slot
the Ace is moved to, so the distinct-rank hand `HA CK D2 H3 C4` counts
`dupes 1 = 3, dupes 2 = 1` and is classified as one pair instead of
no-pair. -/
theorem c3_king_collides_with_ace :
    ([2, 48, 5, 10, 12].map cardRank).Nodup ∧
    isFlush [2, 48, 5, 10, 12] = false ∧
    (classifyState [2, 48, 5, 10, 12]).str8top = 0 ∧
    (classifyState [2, 48, 5, 10, 12]).dupes 1 = 3 ∧
    (classifyState [2, 48, 5, 10, 12]).dupes 2 = 1 ∧
    evalSlow27 [2, 48, 5, 10, 12] true = .ok (evalScore5 1 12 3 2 1 0) := by
  exact ⟨by decide, by decide, by decide, by decide, by decide, by rfl⟩

/-- C4: the wheel `DA H2 C3 S4 H5` is not classified as a straight: its
five-in-a-row window completes at index 4, which the `idx >= 5` guard
rejects, so `str8top` stays 0 and the hand is scored as no-pair with
Ace-high tie-break ranks `A 5 4 3 2` (slots 12, 4, 3, 2, 1). -/
theorem c4_wheel_is_no_pair :
    (classifyState [1, 6, 8, 15, 18]).str8top = 0 ∧
    evalSlow27 [1, 6, 8, 15, 18] true = .ok (evalScore5 0 12 4 3 2 1) := by
  exact ⟨by decide, by rfl⟩

/-- C5: the claim that every non-flush Ten-to-Ace hand is classified as an
Ace-high straight is false.  For `DT HJ CQ SK HA` the broadway window
completes at index 0, which the `idx >= 5` guard rejects just like the
wheel, so `str8top` stays 0; the hand is then classified as one pair
(the King collides with the Ace in slot 12), not as a straight. -/
theorem c5_broadway_not_straight :
    [37, 42, 44, 51, 2].map cardRank = [10, 11, 12, 13, 1] ∧
    isFlush [37, 42, 44, 51, 2] = false ∧
    (classifyState [37, 42, 44, 51, 2]).str8top = 0 ∧
    evalSlow27 [37, 42, 44, 51, 2] true = .ok (evalScore5 1 12 11 10 9 0) := by
  exact ⟨by decide, by decide, by decide, by rfl⟩

/-- C6: the claim that every paired hand scores strictly worse than every
unpaired, non-straight, non-flush hand is false.  The genuine pair of aces
`HA CA D2 H3 C4` receives ordinal `evalScore5 1 12 3 2 1 0` while the
unpaired, unconnected, non-flush hand `DA HK C2 H4 S6` is also (wrongly)
classified as one pair — the King collides with the Ace slot — with the
larger ordinal `evalScore5 1 12 5 3 1 0`; under any strictly monotone
packing the paired hand scores strictly better, inverting the claim. -/
theorem c6_lowball_inversion_fails :
    ¬([2, 0, 5, 10, 12].map cardRank).Nodup ∧
    ([1, 50, 4, 14, 23].map cardRank).Nodup ∧
    isFlush [1, 50, 4, 14, 23] = false ∧
    (classifyState [1, 50, 4, 14, 23]).str8top = 0 ∧
    evalSlow27 [2, 0, 5, 10, 12] true = .ok (evalScore5 1 12 3 2 1 0) ∧
    evalSlow27 [1, 50, 4, 14, 23] true = .ok (evalScore5 1 12 5 3 1 0) ∧
    ∀ pack : Nat → Int, StrictMono pack →
      Eval27 none pack [2, 0, 5, 10, 12] < Eval27 none pack [1, 50, 4, 14, 23] := by
  refine ⟨by decide, by decide, by decide, by decide, by rfl, by rfl, ?_⟩
  intro pack hmono
  show pack (evalScore5 1 12 3 2 1 0).rank < pack (evalScore5 1 12 5 3 1 0).rank
  exact hmono (by decide)

/-- C9: the claim that a classification failure is reported to `Eval27`'s
caller as a typed error is false on the code: `evalSlow27` does return a
typed error (here: on a 4-card slice, the only way `err != nil` arises),
but `Eval27` swallows it and returns the sentinel score 0 — even under a
packing that never produces 0. -/
theorem c9_error_swallowed_to_zero :
    (evalSlow27 [1, 6, 8, 15] true).toOption = none ∧
    Eval27 none (fun n => (n : Int) + 1) [1, 6, 8, 15] = 0 := by
  exact ⟨by rfl, by rfl⟩

/-! ## C8: the enumeration performed by `initDeuce7Table` -/

/-- Hockey-stick style sum: summing `choose r` of the descending values
`s + n - 1 - l` over `l` in `range' s n` gives `choose (r + 1)` of `n`. -/
lemma sum_map_choose (r : Nat) :
    ∀ n s : Nat,
      ((List.range' s n).map fun l => (s + n - 1 - l).choose r).sum = n.choose (r + 1) := by
  intro n
  induction n with
  | zero => intro s; simp
  | succ n ih =>
    intro s
    rw [List.range'_succ, List.map_cons, List.sum_cons]
    have hhead : (s + (n + 1) - 1 - s).choose r = n.choose r := by
      congr 1
      omega
    have hfun : ((List.range' (s + 1) n).map fun l => (s + (n + 1) - 1 - l).choose r) =
        (List.range' (s + 1) n).map fun l => (s + 1 + n - 1 - l).choose r := by
      apply List.map_congr_left
      intro a _
      congr 1
      omega
    rw [hhead, hfun, ih (s + 1), Nat.choose_succ_succ]

lemma loop5_length (i j k l : Nat) : (loop5 i j k l).length = (51 - l).choose 1 := by
  simp [loop5, Nat.choose_one_right]

lemma loop4_length (i j k : Nat) (hk : k ≤ 51) :
    (loop4 i j k).length = (51 - k).choose 2 := by
  rw [loop4, List.length_flatMap, ← sum_map_choose 1 (51 - k) (k + 1)]
  apply congrArg
  apply List.map_congr_left
  intro a ha
  rw [List.mem_range'] at ha
  obtain ⟨s, hs, rfl⟩ := ha
  simp only [Function.comp_apply, loop5_length]
  congr 1
  omega

lemma loop3_length (i j : Nat) (hj : j ≤ 51) :
    (loop3 i j).length = (51 - j).choose 3 := by
  rw [loop3, List.length_flatMap, ← sum_map_choose 2 (51 - j) (j + 1)]
  apply congrArg
  apply List.map_congr_left
  intro a ha
  rw [List.mem_range'] at ha
  obtain ⟨s, hs, rfl⟩ := ha
  have hb : j + 1 + 1 * s ≤ 51 := by omega
  simp only [Function.comp_apply]
  rw [loop4_length i j (j + 1 + 1 * s) hb]
  congr 1
  omega

lemma loop2_length (i : Nat) (hi : i ≤ 51) :
    (loop2 i).length = (51 - i).choose 4 := by
  rw [loop2, List.length_flatMap, ← sum_map_choose 3 (51 - i) (i + 1)]
  apply congrArg
  apply List.map_congr_left
  intro a ha
  rw [List.mem_range'] at ha
  obtain ⟨s, hs, rfl⟩ := ha
  have hb : i + 1 + 1 * s ≤ 51 := by omega
  simp only [Function.comp_apply]
  rw [loop3_length i (i + 1 + 1 * s) hb]
  congr 1
  omega

lemma combos5_length : combos5.length = 2598960 := by
  rw [combos5, List.length_flatMap]
  have h52 : ((List.range 52).map (List.length ∘ loop2)).sum = Nat.choose 52 5 := by
    rw [List.range_eq_range', ← sum_map_choose 4 52 0]
    apply congrArg
    apply List.map_congr_left
    intro a ha
    rw [List.mem_range'] at ha
    obtain ⟨s, hs, rfl⟩ := ha
    have hb : 0 + 1 * s ≤ 51 := by omega
    simp only [Function.comp_apply]
    rw [loop2_length (0 + 1 * s) hb]
  rw [h52, Nat.choose_eq_descFactorial_div_factorial]
  rfl

lemma mem_loop5 {i j k l : Nat} {x : List Nat} (hx : x ∈ loop5 i j k l) :
    ∃ m, x = [i, j, k, l, m] := by
  rw [loop5, List.mem_map] at hx
  obtain ⟨m, _, rfl⟩ := hx
  exact ⟨m, rfl⟩

lemma mem_loop4 {i j k : Nat} {x : List Nat} (hx : x ∈ loop4 i j k) :
    ∃ l m, x = [i, j, k, l, m] := by
  rw [loop4, List.mem_flatMap] at hx
  obtain ⟨l, _, hx⟩ := hx
  obtain ⟨m, rfl⟩ := mem_loop5 hx
  exact ⟨l, m, rfl⟩

lemma mem_loop3 {i j : Nat} {x : List Nat} (hx : x ∈ loop3 i j) :
    ∃ k l m, x = [i, j, k, l, m] := by
  rw [loop3, List.mem_flatMap] at hx
  obtain ⟨k, _, hx⟩ := hx
  obtain ⟨l, m, rfl⟩ := mem_loop4 hx
  exact ⟨k, l, m, rfl⟩

lemma mem_loop2 {i : Nat} {x : List Nat} (hx : x ∈ loop2 i) :
    ∃ j k l m, x = [i, j, k, l, m] := by
  rw [loop2, List.mem_flatMap] at hx
  obtain ⟨j, _, hx⟩ := hx
  obtain ⟨k, l, m, rfl⟩ := mem_loop3 hx
  exact ⟨j, k, l, m, rfl⟩

lemma loop5_nodup (i j k l : Nat) : (loop5 i j k l).Nodup :=
  List.Nodup.map (fun a b hab => by simpa using hab) (List.nodup_range' _ _)

lemma loop4_nodup (i j k : Nat) : (loop4 i j k).Nodup := by
  rw [loop4, List.nodup_flatMap]
  refine ⟨fun _ _ => loop5_nodup i j k _, ?_⟩
  apply List.Pairwise.imp ?_ (List.nodup_range' (k + 1) (51 - k))
  intro a b hab x hxa hxb
  obtain ⟨m1, h1⟩ := mem_loop5 hxa
  obtain ⟨m2, h2⟩ := mem_loop5 hxb
  rw [h1] at h2
  injection h2 with e1 h2
  injection h2 with e2 h2
  injection h2 with e3 h2
  injection h2 with e4 h2
  exact hab e4

lemma loop3_nodup (i j : Nat) : (loop3 i j).Nodup := by
  rw [loop3, List.nodup_flatMap]
  refine ⟨fun _ _ => loop4_nodup i j _, ?_⟩
  apply List.Pairwise.imp ?_ (List.nodup_range' (j + 1) (51 - j))
  intro a b hab x hxa hxb
  obtain ⟨l1, m1, h1⟩ := mem_loop4 hxa
  obtain ⟨l2, m2, h2⟩ := mem_loop4 hxb
  rw [h1] at h2
  injection h2 with e1 h2
  injection h2 with e2 h2
  injection h2 with e3 h2
  exact hab e3

lemma loop2_nodup (i : Nat) : (loop2 i).Nodup := by
  rw [loop2, List.nodup_flatMap]
  refine ⟨fun _ _ => loop3_nodup i _, ?_⟩
  apply List.Pairwise.imp ?_ (List.nodup_range' (i + 1) (51 - i))
  intro a b hab x hxa hxb
  obtain ⟨k1, l1, m1, h1⟩ := mem_loop3 hxa
  obtain ⟨k2, l2, m2, h2⟩ := mem_loop3 hxb
  rw [h1] at h2
  injection h2 with e1 h2
  injection h2 with e2 h2
  exact hab e2

lemma combos5_nodup : combos5.Nodup := by
  rw [combos5, List.nodup_flatMap]
  refine ⟨fun _ _ => loop2_nodup _, ?_⟩
  apply List.Pairwise.imp ?_ (List.nodup_range 52)
  intro a b hab x hxa hxb
  obtain ⟨j1, k1, l1, m1, h1⟩ := mem_loop2 hxa
  obtain ⟨j2, k2, l2, m2, h2⟩ := mem_loop2 hxb
  rw [h1] at h2
  injection h2 with e1 h2
  exact hab e1

lemma mem_combos5 {a b c d e : Nat} :
    [a, b, c, d, e] ∈ combos5 ↔ a < b ∧ b < c ∧ c < d ∧ d < e ∧ e < 52 := by
  simp only [combos5, loop2, loop3, loop4, loop5, List.mem_flatMap, List.mem_map,
    List.mem_range, List.mem_range']
  constructor
  · rintro ⟨i, hi, j, ⟨tj, htj, rfl⟩, k, ⟨tk, htk, rfl⟩, l, ⟨tl, htl, rfl⟩,
      m, ⟨tm, htm, rfl⟩, heq⟩
    injection heq with e1 heq
    injection heq with e2 heq
    injection heq with e3 heq
    injection heq with e4 heq
    injection heq with e5 heq
    omega
  · rintro ⟨hab, hbc, hcd, hde, he⟩
    exact ⟨a, by omega, b, ⟨b - (a + 1), by omega, by omega⟩,
      c, ⟨c - (b + 1), by omega, by omega⟩, d, ⟨d - (c + 1), by omega, by omega⟩,
      e, ⟨e - (d + 1), by omega, by omega⟩, rfl⟩

/-- On a normal return of `initDeuce7Table`, the sentinel sweep has passed:
no slot of the table still holds -1. -/
lemma init_no_sentinel {pack : Nat → Int} {t : Nat → Int}
    (h : initDeuce7Table pack = some t) : ∀ i < 7462, t i ≠ -1 := by
  intro i hi
  unfold initDeuce7Table at h
  obtain ⟨t0, hm, hf⟩ := Option.bind_eq_some.mp h
  obtain ⟨hall, ht⟩ := Option.ite_none_right_eq_some.mp hf
  obtain rfl : t0 = t := by simpa using ht
  exact bne_iff_ne.mp ((List.all_eq_true.mp hall) i (List.mem_range.mpr hi))

/-- C8: `initDeuce7Table` enumerates exactly the ascending 5-card
combinations of the 52-card deck — 2,598,960 of them, no combination
repeated or omitted — and on a normal return (no panic) no slot of the
7,462-entry table still holds the sentinel -1. -/
theorem c8_enumeration_and_sweep :
    combos5.length = 2598960 ∧
    combos5.Nodup ∧
    (∀ a b c d e : Nat,
      [a, b, c, d, e] ∈ combos5 ↔ a < b ∧ b < c ∧ c < d ∧ d < e ∧ e < 52) ∧
    (∀ pack : Nat → Int, ∀ t : Nat → Int,
      initDeuce7Table pack = some t → ∀ i < 7462, t i ≠ -1) :=
  ⟨combos5_length, combos5_nodup, fun _ _ _ _ _ => mem_combos5,
    fun _ _ h => init_no_sentinel h⟩

/-! ## C10: no sentinel value survives a completed table build -/

/-- Every slot of the table is either still the sentinel -1 or holds a
written score, and written scores are checked nonzero before the write. -/
def tableInv (t : Nat → Int) : Prop :=
  ∀ i, t i = -1 ∨ t i ≠ 0

/-- One `initDeuce7Table` loop body preserves `tableInv`: the only write is
guarded by the `slowRank == 0` panic check. -/
lemma buildStep_inv {pack : Nat → Int} {acc : Option (Nat → Int)}
    (hacc : ∀ t0, acc = some t0 → tableInv t0) (hand : List Card) :
    ∀ t1, buildStep pack acc hand = some t1 → tableInv t1 := by
  intro t1 h
  cases acc with
  | none => exact absurd h (by simp [buildStep])
  | some tbl =>
    have htbl := hacc tbl rfl
    unfold buildStep at h
    rw [Option.some_bind] at h
    simp only [] at h
    rcases hev : evalSlow27 (SortCards hand) true with msg | ev
    · rw [hev] at h
      exact absurd h (by simp)
    · rw [hev] at h
      simp only at h
      split_ifs at h with hidx hz
      obtain rfl : Function.update tbl (perfectHash (SortCards hand)) (pack ev.rank) = t1 := by
        simpa using h
      intro i
      by_cases hi : i = perfectHash (SortCards hand)
      · subst hi
        right
        rw [Function.update_same]
        exact hz
      · rw [Function.update_noteq hi]
        exact htbl i

/-- `tableInv` is preserved along the whole enumeration fold. -/
lemma foldl_build_inv {pack : Nat → Int} :
    ∀ (l : List (List Card)) (acc : Option (Nat → Int)),
      (∀ t0, acc = some t0 → tableInv t0) →
      ∀ t, l.foldl (buildStep pack) acc = some t → tableInv t := by
  intro l
  induction l with
  | nil => intro acc hacc t h; exact hacc t h
  | cons x l ih =>
    intro acc hacc t h
    rw [List.foldl_cons] at h
    exact ih (buildStep pack acc x) (buildStep_inv hacc x) t h

/-- The hash is always a legal table index. -/
lemma perfectHash_lt (l : List Card) : perfectHash l < 7462 :=
  Nat.mod_lt _ (by norm_num)

/-- C10: once `initDeuce7Table` has completed without panicking, every
entry of the 7,462-slot table is neither the sentinel -1 (the final sweep
rejects it) nor 0 (every written score was checked nonzero, and a normal
return means every slot was written), so `Eval27Fast` never returns 0 — the
slow path's error fallback — and never returns -1, whatever the packing
array holds and whatever hand is looked up. -/
theorem c10_no_sentinel_scores (pack : Nat → Int) (hand : List Card) :
    Option.elim (initDeuce7Table pack) True fun t =>
      (∀ i < 7462, t i ≠ -1 ∧ t i ≠ 0) ∧
      Eval27FastWith t hand ≠ -1 ∧ Eval27FastWith t hand ≠ 0 := by
  cases hinit : initDeuce7Table pack with
  | none => trivial
  | some t =>
    simp only [Option.elim]
    have hno1 : ∀ i < 7462, t i ≠ -1 := init_no_sentinel hinit
    have hinv : tableInv t := by
      unfold initDeuce7Table at hinit
      obtain ⟨t0, hm, hf⟩ := Option.bind_eq_some.mp hinit
      obtain ⟨hall, ht⟩ := Option.ite_none_right_eq_some.mp hf
      obtain rfl : t0 = t := by simpa using ht
      exact foldl_build_inv combos5 (some fun _ => -1)
        (fun t2 h0 => by
          obtain rfl : (fun _ => (-1 : Int)) = t2 := by simpa using h0
          intro i
          exact Or.inl rfl) _ hm
    have hboth : ∀ i < 7462, t i ≠ -1 ∧ t i ≠ 0 := by
      intro i hi
      refine ⟨hno1 i hi, ?_⟩
      rcases hinv i with h | h
      · exact absurd h (hno1 i hi)
      · exact h
    refine ⟨hboth, ?_, ?_⟩
    · exact (hboth _ (perfectHash_lt _)).1
    · exact (hboth _ (perfectHash_lt _)).2

/-! ## C7: order-insensitivity.  Part 1: the rank-multiplicity accounting
is insensitive to the order of the cards. -/

lemma bucketAdd_ranks (s : St) (r : Nat) :
    (bucketAdd s r).ranks = Function.update s.ranks r (s.ranks r + 1) := rfl

lemma bucketAdd_str8s (s : St) (r : Nat) : (bucketAdd s r).str8s = s.str8s := rfl

lemma bucketAdd_str8top (s : St) (r : Nat) : (bucketAdd s r).str8top = s.str8top := rfl

/-- The `dupes` update of one `bucketAdd`, pointwise. -/
lemma bucketAdd_dupes (s : St) (r : Nat) :
    (bucketAdd s r).dupes = fun k =>
      if k = s.ranks r then s.dupes k - 1
      else if k = s.ranks r + 1 then s.dupes k + 1 else s.dupes k := by
  funext k
  show Function.update
      (Function.update s.dupes (s.ranks r + 1) (s.dupes (s.ranks r + 1) + 1)) (s.ranks r)
      (Function.update s.dupes (s.ranks r + 1) (s.dupes (s.ranks r + 1) + 1) (s.ranks r) - 1)
      k = _
  by_cases h0 : k = s.ranks r
  · rw [if_pos h0, h0, Function.update_same,
      Function.update_noteq (by omega : s.ranks r ≠ s.ranks r + 1)]
  · rw [if_neg h0, Function.update_noteq h0]
    by_cases h1 : k = s.ranks r + 1
    · rw [if_pos h1, h1, Function.update_same]
    · rw [if_neg h1, Function.update_noteq h1]

/-- The `rankBits` update of one `bucketAdd`, pointwise. -/
lemma bucketAdd_rankBits (s : St) (r : Nat) :
    (bucketAdd s r).rankBits = fun j =>
      if j = s.ranks r then s.rankBits j ||| (1 <<< r) else s.rankBits j := by
  funext j
  show Function.update s.rankBits (s.ranks r) (s.rankBits (s.ranks r) ||| (1 <<< r)) j = _
  by_cases h0 : j = s.ranks r
  · rw [if_pos h0, h0, Function.update_same]
  · rw [if_neg h0, Function.update_noteq h0]

/-- Two `bucketAdd` steps commute: the accounting of two cards does not
depend on which is processed first. -/
lemma bucketAdd_comm (s : St) (r r' : Nat) :
    bucketAdd (bucketAdd s r) r' = bucketAdd (bucketAdd s r') r := by
  by_cases hrr : r = r'
  · subst hrr; rfl
  have hra : Function.update s.ranks r (s.ranks r + 1) r' = s.ranks r' :=
    Function.update_noteq (Ne.symm hrr) _ _
  have hrb : Function.update s.ranks r' (s.ranks r' + 1) r = s.ranks r :=
    Function.update_noteq hrr _ _
  refine St.ext ?_ ?_ ?_ rfl rfl
  · -- ranks
    simp only [bucketAdd_ranks, hra, hrb]
    exact Function.update_comm hrr _ _ _
  · -- dupes
    simp only [bucketAdd_dupes, bucketAdd_ranks, hra, hrb]
    funext k
    split_ifs <;> omega
  · -- rankBits
    simp only [bucketAdd_rankBits, bucketAdd_ranks, hra, hrb]
    funext j
    split_ifs <;> try rfl
    rw [Nat.or_assoc, Nat.or_assoc, Nat.lor_comm (1 <<< r) (1 <<< r')]

/-- Folding `bucketAdd` over the cards is order-insensitive. -/
lemma countFold_perm (f : Card → Nat) {c c' : List Card} (h : c.Perm c') (z : St) :
    c.foldl (fun s ci => bucketAdd s (f ci)) z = c'.foldl (fun s ci => bucketAdd s (f ci)) z := by
  haveI : RightCommutative fun (s : St) (ci : Card) => bucketAdd s (f ci) :=
    ⟨fun s a b => bucketAdd_comm s (f a) (f b)⟩
  exact h.foldl_eq z

/-! Part 2: the straight-window bit array, characterized pointwise. -/

lemma str8Add_ranks (s : St) (cr : Nat) : (str8Add s cr).ranks = s.ranks := rfl

lemma str8Add_dupes (s : St) (cr : Nat) : (str8Add s cr).dupes = s.dupes := rfl

lemma str8Add_rankBits (s : St) (cr : Nat) : (str8Add s cr).rankBits = s.rankBits := rfl

lemma str8Add_str8s (s : St) (cr : Nat) :
    (str8Add s cr).str8s = ([0, 1, 2, 3, 4].foldl (str8Step cr) (s.str8s, s.str8top)).1 := rfl

lemma str8Add_str8top (s : St) (cr : Nat) :
    (str8Add s cr).str8top = ([0, 1, 2, 3, 4].foldl (str8Step cr) (s.str8s, s.str8top)).2 := rfl

lemma testBit_one_shiftLeft (i b : Nat) : (1 <<< i).testBit b = decide (i = b) := by
  rw [Nat.one_shiftLeft, Nat.testBit_two_pow]

/-- One straight-window iteration, pointwise on the bit array. -/
lemma str8Step_fst (cr : Nat) (p : (Nat → Nat) × Nat) (i idx b : Nat) :
    ((str8Step cr p i).1 idx).testBit b =
      ((p.1 idx).testBit b || decide (b = i ∧ str8Idx cr i = idx)) := by
  show (Function.update p.1 (str8Idx cr i) (p.1 (str8Idx cr i) ||| (1 <<< i)) idx).testBit b = _
  by_cases hidx : idx = str8Idx cr i
  · subst hidx
    rw [Function.update_same, Nat.testBit_lor, testBit_one_shiftLeft]
    by_cases hbi : b = i
    · simp [hbi]
    · have h1 : (decide (i = b)) = false := by
        simp only [decide_eq_false_iff_not]
        exact fun h => hbi h.symm
      have h2 : (decide (b = i ∧ str8Idx cr i = str8Idx cr i)) = false := by
        simp [hbi]
      rw [h1, h2]
  · rw [Function.update_noteq hidx]
    have hno : ¬(b = i ∧ str8Idx cr i = idx) := fun hp => hidx hp.2.symm
    simp [hno]

/-- The five-offset loop, pointwise on the bit array. -/
lemma micro_str8s (cr : Nat) :
    ∀ (L : List Nat) (p : (Nat → Nat) × Nat) (idx b : Nat),
      ((List.foldl (str8Step cr) p L).1 idx).testBit b =
        ((p.1 idx).testBit b || decide (b ∈ L ∧ str8Idx cr b = idx)) := by
  intro L
  induction L with
  | nil => intro p idx b; simp
  | cons i L ih =>
    intro p idx b
    rw [List.foldl_cons, ih, str8Step_fst, Bool.or_assoc]
    congr 1
    rw [Bool.or_eq_decide, decide_eq_decide]
    constructor
    · rintro (⟨rfl, h⟩ | ⟨hL, h⟩)
      · exact ⟨List.mem_cons_self _ _, h⟩
      · exact ⟨List.mem_cons_of_mem _ hL, h⟩
    · rintro ⟨hmem, h⟩
      rcases List.mem_cons.mp hmem with rfl | hL
      · exact Or.inl ⟨rfl, h⟩
      · exact Or.inr ⟨hL, h⟩

/-- The first pass, pointwise on the bit array: a bit is set exactly when
some card of the hand contributes it. -/
lemma pass1_str8s :
    ∀ (c : List Card) (z : St) (idx b : Nat),
      ((c.foldl step1 z).str8s idx).testBit b =
        ((z.str8s idx).testBit b ||
          decide (∃ ci ∈ c, b < 5 ∧ str8Idx (crOf ci) b = idx)) := by
  intro c
  induction c with
  | nil => intro z idx b; simp
  | cons ci c ih =>
    intro z idx b
    rw [List.foldl_cons, ih]
    have hstep : ((step1 z ci).str8s idx).testBit b =
        ((z.str8s idx).testBit b ||
          decide (b ∈ [0, 1, 2, 3, 4] ∧ str8Idx (crOf ci) b = idx)) := by
      show (((str8Add (bucketAdd z (rawr1Of ci)) (crOf ci)).str8s idx)).testBit b = _
      rw [str8Add_str8s, micro_str8s]
      rfl
    rw [hstep, Bool.or_assoc]
    congr 1
    rw [Bool.or_eq_decide, decide_eq_decide]
    have hmem5 : b ∈ [0, 1, 2, 3, 4] ↔ b < 5 := by
      simp
      omega
    constructor
    · rintro (⟨hb5, h⟩ | ⟨cj, hcj, hb5, h⟩)
      · exact ⟨ci, List.mem_cons_self _ _, hmem5.mp hb5, h⟩
      · exact ⟨cj, List.mem_cons_of_mem _ hcj, hb5, h⟩
    · rintro ⟨cj, hmem, hb5, h⟩
      rcases List.mem_cons.mp hmem with rfl | hcj
      · exact Or.inl ⟨hmem5.mpr hb5, h⟩
      · exact Or.inr ⟨cj, hcj, hb5, h⟩

/-! Part 3: the `str8top` register, characterized as a function of the
hand's set of complete straight windows. -/

/-- A complete straight window: every one of the five rotational offsets of
window `idx` is contributed by some card of `c`. -/
def completeW (c : List Card) (idx : Nat) : Prop :=
  ∀ b < 5, ∃ ci ∈ c, str8Idx (crOf ci) b = idx

instance (c : List Card) (idx : Nat) : Decidable (completeW c idx) := by
  unfold completeW
  infer_instance

/-- The value the straight-detection loop leaves in `str8top`: the top of
the unique complete window at a guarded index (`idx >= 5`), or 0. -/
def specTop (c : List Card) : Nat :=
  (List.range 13).foldl
    (fun acc idx => if completeW c idx ∧ 5 ≤ idx then (idx + 12) % 13 + 1 else acc) 0

/-- The firing condition of the `str8top` assignment while processing one
card over the accumulated bit array `S`: ORing offset `i`'s bit into the
window makes it complete, at a guarded index. -/
def fires (S : Nat → Nat) (cr i : Nat) : Prop :=
  (S (str8Idx cr i) ||| (1 <<< i)) = 31 ∧ 5 ≤ str8Idx cr i

instance (S : Nat → Nat) (cr i : Nat) : Decidable (fires S cr i) := by
  unfold fires
  infer_instance

lemma foldl_select_none {p : Nat → Prop} [DecidablePred p] {v : Nat → Nat} :
    ∀ (L : List Nat) (a : Nat), (∀ i ∈ L, ¬p i) →
      L.foldl (fun acc i => if p i then v i else acc) a = a := by
  intro L
  induction L with
  | nil => intro a _; rfl
  | cons x L ih =>
    intro a h
    rw [List.foldl_cons, if_neg (h x (List.mem_cons_self _ _))]
    exact ih a fun i hi => h i (List.mem_cons_of_mem _ hi)

lemma foldl_select_one {p : Nat → Prop} [DecidablePred p] {v : Nat → Nat} :
    ∀ (L : List Nat) (a : Nat) (i0 : Nat), i0 ∈ L → p i0 →
      (∀ i ∈ L, p i → i = i0) →
      L.foldl (fun acc i => if p i then v i else acc) a = v i0 := by
  intro L
  induction L with
  | nil => intro a i0 h; exact absurd h (List.not_mem_nil i0)
  | cons x L ih =>
    intro a i0 hmem hp huniq
    rw [List.foldl_cons]
    by_cases hpx : p x
    · have hx0 : x = i0 := huniq x (List.mem_cons_self _ _) hpx
      rw [if_pos hpx, hx0]
      by_cases hL : ∃ i ∈ L, p i
      · obtain ⟨i1, hi1, hpi1⟩ := hL
        have he : i1 = i0 := huniq i1 (List.mem_cons_of_mem _ hi1) hpi1
        rw [← he]
        exact ih (v i1) i1 hi1 hpi1 fun i hi hpi =>
          (huniq i (List.mem_cons_of_mem _ hi) hpi).trans he.symm
      · push_neg at hL
        exact foldl_select_none L (v i0) hL
    · rw [if_neg hpx]
      have hi0L : i0 ∈ L := by
        rcases List.mem_cons.mp hmem with rfl | h
        · exact absurd hp hpx
        · exact h
      exact ih a i0 hi0L hp fun i hi hpi => huniq i (List.mem_cons_of_mem _ hi) hpi

/-- The `str8top` produced by the five-offset loop of one card, given that
the offsets hit five distinct windows: it is unchanged when no offset
fires, and set to the firing offset's window top when exactly one does. -/
lemma micro_top (cr : Nat) :
    ∀ L : List Nat, L.Nodup →
      (∀ i ∈ L, ∀ j ∈ L, i ≠ j → str8Idx cr i ≠ str8Idx cr j) →
      ∀ (S : Nat → Nat) (T : Nat),
      ((∀ i ∈ L, ¬fires S cr i) → (List.foldl (str8Step cr) (S, T) L).2 = T) ∧
      (∀ i0 ∈ L, fires S cr i0 → (∀ i ∈ L, i ≠ i0 → ¬fires S cr i) →
        (List.foldl (str8Step cr) (S, T) L).2 = (str8Idx cr i0 + 12) % 13 + 1) := by
  intro L
  induction L with
  | nil =>
    intro _ _ S T
    exact ⟨fun _ => rfl, fun i0 h => absurd h (List.not_mem_nil i0)⟩
  | cons x L ih =>
    intro hnd hdist S T
    have hxL : x ∉ L := (List.nodup_cons.mp hnd).1
    have hndL : L.Nodup := (List.nodup_cons.mp hnd).2
    have hdistL : ∀ i ∈ L, ∀ j ∈ L, i ≠ j → str8Idx cr i ≠ str8Idx cr j :=
      fun i hi j hj => hdist i (List.mem_cons_of_mem _ hi) j (List.mem_cons_of_mem _ hj)
    -- the state after processing offset x
    have hstep : str8Step cr (S, T) x =
        (Function.update S (str8Idx cr x) (S (str8Idx cr x) ||| (1 <<< x)),
         if fires S cr x then (str8Idx cr x + 12) % 13 + 1 else T) := by
      unfold str8Step fires
      simp [Function.update_same]
    have hstable : ∀ i ∈ L,
        (fires (Function.update S (str8Idx cr x) (S (str8Idx cr x) ||| (1 <<< x))) cr i ↔
         fires S cr i) := by
      intro i hi
      have hne : str8Idx cr i ≠ str8Idx cr x := by
        apply hdist i (List.mem_cons_of_mem _ hi) x (List.mem_cons_self _ _)
        intro he
        subst he
        exact hxL hi
      unfold fires
      rw [Function.update_noteq hne]
    constructor
    · intro hno
      rw [List.foldl_cons, hstep, if_neg (hno x (List.mem_cons_self _ _))]
      exact (ih hndL hdistL _ T).1 fun i hi =>
        fun hf => hno i (List.mem_cons_of_mem _ hi) ((hstable i hi).mp hf)
    · intro i0 hi0 hfire huniq
      rcases List.mem_cons.mp hi0 with rfl | hi0L
      · rw [List.foldl_cons, hstep, if_pos hfire]
        exact (ih hndL hdistL _ _).1 fun i hi hf =>
          huniq i (List.mem_cons_of_mem _ hi)
            (fun he => hxL (he ▸ hi)) ((hstable i hi).mp hf)
      · have hxne : ¬fires S cr x :=
          huniq x (List.mem_cons_self _ _) fun he => hxL (he ▸ hi0L)
        rw [List.foldl_cons, hstep, if_neg hxne]
        exact (ih hndL hdistL _ T).2 i0 hi0L ((hstable i0 hi0L).mpr hfire)
          fun i hi hne hf => huniq i (List.mem_cons_of_mem _ hi) hne ((hstable i hi).mp hf)

lemma mem_offsets (i : Nat) : i ∈ [0, 1, 2, 3, 4] ↔ i < 5 := by
  simp
  omega

lemma str8Idx_lt (cr i : Nat) : str8Idx cr i < 13 := by
  unfold str8Idx
  split <;> exact Nat.mod_lt _ (by norm_num)

lemma str8Idx_res (cr b : Nat) : str8Idx cr b = (str8Idx cr 0 + b) % 13 := by
  unfold str8Idx
  split <;> rw [Nat.add_zero, Nat.mod_add_mod]

lemma crOf_lt {ci : Nat} (h : ci < 52) : crOf ci < 15 := by
  have h1 : cardRank ci < 15 := by
    unfold cardRank
    omega
  unfold crOf
  split
  · omega
  · exact h1

lemma str8Idx_inj_offsets : ∀ cr < 15, ∀ b < 5, ∀ b' < 5,
    str8Idx cr b = str8Idx cr b' → b = b' := by decide

lemma res_eq_iff : ∀ r < 13, ∀ idx < 13, ∀ b < 5,
    ((r + b) % 13 = idx ↔ r = (idx + 13 - b) % 13) := by decide

/-- The five residues a complete window at `idx` requires. -/
def spanList (idx : Nat) : List Nat := (List.range 5).map fun b => (idx + 13 - b) % 13

lemma spanList_card : ∀ idx < 13, (spanList idx).toFinset.card = 5 := by decide

lemma spanList_inj : ∀ idx < 13, ∀ idx' < 13,
    (spanList idx).toFinset ⊆ (spanList idx').toFinset → idx = idx' := by decide

lemma completeW_idx_lt {c : List Card} {idx : Nat} (h : completeW c idx) : idx < 13 := by
  obtain ⟨ci, _, he⟩ := h 0 (by norm_num)
  exact he ▸ str8Idx_lt _ _

lemma completeW_res {c : List Card} {idx : Nat} (h : completeW c idx) :
    ∀ y ∈ spanList idx, y ∈ c.map fun ci => str8Idx (crOf ci) 0 := by
  intro y hy
  obtain ⟨b, hb, rfl⟩ : ∃ b, b < 5 ∧ (idx + 13 - b) % 13 = y := by
    simpa [spanList, List.mem_map, List.mem_range] using hy
  obtain ⟨ci, hm, he⟩ := h b hb
  have hr : (str8Idx (crOf ci) 0 + b) % 13 = idx := by rw [← str8Idx_res]; exact he
  have : str8Idx (crOf ci) 0 = (idx + 13 - b) % 13 :=
    (res_eq_iff _ (str8Idx_lt _ _) idx (he ▸ str8Idx_lt _ _) b hb).mp hr
  exact List.mem_map.mpr ⟨ci, hm, this⟩

/-- A hand of at most five cards can have at most one complete window. -/
lemma completeW_unique {c : List Card} (hlen : c.length ≤ 5) {idx idx' : Nat}
    (h : completeW c idx) (h' : completeW c idx') : idx = idx' := by
  have hi : idx < 13 := completeW_idx_lt h
  have hi' : idx' < 13 := completeW_idx_lt h'
  have hR : (c.map fun ci => str8Idx (crOf ci) 0).toFinset.card ≤ 5 :=
    le_trans (List.toFinset_card_le _) (by simpa using hlen)
  have hsub : (spanList idx).toFinset ⊆ (c.map fun ci => str8Idx (crOf ci) 0).toFinset :=
    fun y hy => List.mem_toFinset.mpr (completeW_res h y (List.mem_toFinset.mp hy))
  have hsub' : (spanList idx').toFinset ⊆ (c.map fun ci => str8Idx (crOf ci) 0).toFinset :=
    fun y hy => List.mem_toFinset.mpr (completeW_res h' y (List.mem_toFinset.mp hy))
  have he1 : (spanList idx).toFinset = (c.map fun ci => str8Idx (crOf ci) 0).toFinset :=
    Finset.eq_of_subset_of_card_le hsub (le_trans hR (le_of_eq (spanList_card idx hi).symm))
  have he2 : (spanList idx').toFinset = (c.map fun ci => str8Idx (crOf ci) 0).toFinset :=
    Finset.eq_of_subset_of_card_le hsub' (le_trans hR (le_of_eq (spanList_card idx' hi').symm))
  exact spanList_inj idx hi idx' hi' (le_of_eq (he1.trans he2.symm))

lemma completeW_append {c : List Card} {x : Card} {idx : Nat} (h : completeW c idx) :
    completeW (c ++ [x]) idx := by
  intro b hb
  obtain ⟨ci, hm, he⟩ := h b hb
  exact ⟨ci, List.mem_append_left _ hm, he⟩

lemma testBit_31 (b : Nat) : (31 : Nat).testBit b = decide (b < 5) := by
  rw [show (31 : Nat) = 2 ^ 5 - 1 by norm_num, Nat.testBit_two_pow_sub_one]

/-- The firing condition over the bit array accumulated from `c` is
exactly: the window the offset hits is complete once the new card joins,
and lies at a guarded index. -/
lemma fires_iff_complete {c : List Card} {x : Card} {i : Nat}
    (hcr : crOf x < 15) (hi : i < 5) :
    fires ((c.foldl step1 st0).str8s) (crOf x) i ↔
      (completeW (c ++ [x]) (str8Idx (crOf x) i) ∧ 5 ≤ str8Idx (crOf x) i) := by
  have hchar : ∀ idx b, (((c.foldl step1 st0).str8s) idx).testBit b =
      decide (∃ ci ∈ c, b < 5 ∧ str8Idx (crOf ci) b = idx) := by
    intro idx b
    rw [pass1_str8s]
    simp [st0]
  unfold fires
  constructor
  · rintro ⟨h31, hg⟩
    refine ⟨?_, hg⟩
    intro b hb
    have hbit : ((((c.foldl step1 st0).str8s) (str8Idx (crOf x) i) ||| (1 <<< i))).testBit b
        = true := by
      rw [h31, testBit_31, decide_eq_true_eq]
      exact hb
    rw [Nat.testBit_lor, testBit_one_shiftLeft, hchar] at hbit
    rcases (Bool.or_eq_true _ _) ▸ hbit with h | h
    · obtain ⟨ci, hm, _, he⟩ := of_decide_eq_true h
      exact ⟨ci, List.mem_append_left _ hm, he⟩
    · have hbi : i = b := of_decide_eq_true h
      exact ⟨x, List.mem_append_right _ (by simp), by rw [← hbi]⟩
  · rintro ⟨hc, hg⟩
    refine ⟨?_, hg⟩
    apply Nat.eq_of_testBit_eq
    intro b
    rw [Nat.testBit_lor, testBit_one_shiftLeft, hchar, testBit_31]
    by_cases hb : b < 5
    · rw [decide_eq_true hb]
      obtain ⟨cj, hm, he⟩ := hc b hb
      rcases List.mem_append.mp hm with h | h
      · rw [decide_eq_true ⟨cj, h, hb, he⟩, Bool.true_or]
      · have : cj = x := by simpa using h
        subst this
        have : b = i := str8Idx_inj_offsets (crOf cj) hcr b hb i hi (he.trans rfl)
        rw [this, decide_eq_true rfl, Bool.or_true]
    · have h1 : (decide (∃ ci ∈ c, b < 5 ∧ str8Idx (crOf ci) b = str8Idx (crOf x) i)) = false := by
        simp only [decide_eq_false_iff_not]
        rintro ⟨ci, _, hb5, _⟩
        exact hb hb5
      have h2 : (decide (i = b)) = false := by
        simp only [decide_eq_false_iff_not]
        omega
      have h3 : (decide (b < 5)) = false := by
        simp only [decide_eq_false_iff_not]
        exact hb
      rw [h1, h2, h3]
      rfl

lemma specTop_of_none {c : List Card} (h : ∀ idx, ¬(completeW c idx ∧ 5 ≤ idx)) :
    specTop c = 0 :=
  foldl_select_none _ _ fun i _ => h i

lemma specTop_of_unique {c : List Card} {idx0 : Nat} (h1 : completeW c idx0)
    (h5 : 5 ≤ idx0) (hu : ∀ idx, completeW c idx → idx = idx0) :
    specTop c = (idx0 + 12) % 13 + 1 :=
  foldl_select_one _ _ idx0 (List.mem_range.mpr (completeW_idx_lt h1)) ⟨h1, h5⟩
    fun i _ hpi => hu i hpi.1

/-- The first pass leaves in `str8top` exactly the value of `specTop`:
the top of the hand's unique guarded complete window, or 0. -/
lemma pass1_str8top : ∀ c : List Card, c.length ≤ 5 → (∀ ci ∈ c, ci < 52) →
    (c.foldl step1 st0).str8top = specTop c := by
  intro c
  induction c using List.reverseRecOn with
  | nil =>
    intro _ _
    have : specTop [] = 0 := specTop_of_none fun idx hx => by
      obtain ⟨ci, hm, _⟩ := hx.1 0 (by norm_num)
      exact absurd hm (List.not_mem_nil ci)
    rw [this]
    rfl
  | append_singleton c x ih =>
    intro hlen hval
    have hlenc : c.length ≤ 5 := by
      have := hlen
      simp only [List.length_append, List.length_singleton] at this
      omega
    have hvalc : ∀ ci ∈ c, ci < 52 := fun ci hi => hval ci (List.mem_append_left _ hi)
    have hvx : x < 52 := hval x (List.mem_append_right _ (by simp))
    have hcr : crOf x < 15 := crOf_lt hvx
    rw [List.foldl_append, List.foldl_cons, List.foldl_nil]
    have hnd5 : [0, 1, 2, 3, 4].Nodup := by decide
    have hdist5 : ∀ i ∈ [0, 1, 2, 3, 4], ∀ j ∈ [0, 1, 2, 3, 4], i ≠ j →
        str8Idx (crOf x) i ≠ str8Idx (crOf x) j := by
      intro i hi j hj hne he
      exact hne (str8Idx_inj_offsets (crOf x) hcr i ((mem_offsets i).mp hi)
        j ((mem_offsets j).mp hj) he)
    have hmicro := micro_top (crOf x) [0, 1, 2, 3, 4] hnd5 hdist5
      (List.foldl step1 st0 c).str8s (List.foldl step1 st0 c).str8top
    have hfold : (step1 (List.foldl step1 st0 c) x).str8top =
        (List.foldl (str8Step (crOf x))
          ((List.foldl step1 st0 c).str8s, (List.foldl step1 st0 c).str8top)
          [0, 1, 2, 3, 4]).2 := rfl
    by_cases hex : ∃ idx, completeW (c ++ [x]) idx ∧ 5 ≤ idx
    · obtain ⟨idxs, hcs, h5s⟩ := hex
      have hlenx : (c ++ [x]).length ≤ 5 := hlen
      have huniq : ∀ idx, completeW (c ++ [x]) idx → idx = idxs :=
        fun idx hc => completeW_unique hlenx hc hcs
      rw [specTop_of_unique hcs h5s huniq]
      by_cases htouch : ∃ i < 5, str8Idx (crOf x) i = idxs
      · obtain ⟨i0, hi05, hti⟩ := htouch
        have hf0 : fires (List.foldl step1 st0 c).str8s (crOf x) i0 := by
          rw [fires_iff_complete hcr hi05, hti]
          exact ⟨hcs, h5s⟩
        have hfu : ∀ i ∈ [0, 1, 2, 3, 4], i ≠ i0 →
            ¬fires (List.foldl step1 st0 c).str8s (crOf x) i := by
          intro i hi hne hf
          have hi5 : i < 5 := (mem_offsets i).mp hi
          have hcomp := (fires_iff_complete hcr hi5).mp hf
          have hei : str8Idx (crOf x) i = idxs := huniq _ hcomp.1
          exact hne (str8Idx_inj_offsets (crOf x) hcr i hi5 i0 hi05 (hei.trans hti.symm))
        rw [hfold, hmicro.2 i0 ((mem_offsets i0).mpr hi05) hf0 hfu, hti]
      · push_neg at htouch
        have hcc : completeW c idxs := by
          intro b hb
          obtain ⟨cj, hmem, he⟩ := hcs b hb
          rcases List.mem_append.mp hmem with h | h
          · exact ⟨cj, h, he⟩
          · have : cj = x := by simpa using h
            subst this
            exact absurd he (htouch b hb)
        have hnof : ∀ i ∈ [0, 1, 2, 3, 4],
            ¬fires (List.foldl step1 st0 c).str8s (crOf x) i := by
          intro i hi hf
          have hi5 : i < 5 := (mem_offsets i).mp hi
          have hcomp := (fires_iff_complete hcr hi5).mp hf
          exact htouch i hi5 (huniq _ hcomp.1)
        rw [hfold, hmicro.1 hnof, ih hlenc hvalc]
        exact specTop_of_unique hcc h5s
          fun idx hc => huniq idx (completeW_append hc)
    · push_neg at hex
      have hnof : ∀ i ∈ [0, 1, 2, 3, 4],
          ¬fires (List.foldl step1 st0 c).str8s (crOf x) i := by
        intro i hi hf
        have hi5 : i < 5 := (mem_offsets i).mp hi
        have hcomp := (fires_iff_complete hcr hi5).mp hf
        exact absurd hcomp.2 (Nat.not_le_of_lt (hex _ hcomp.1))
      rw [hfold, hmicro.1 hnof, ih hlenc hvalc,
        specTop_of_none fun idx hx => absurd hx.2 (Nat.not_le_of_lt (hex idx hx.1)),
        specTop_of_none fun idx hx =>
          absurd hx.2 (Nat.not_le_of_lt (hex idx (completeW_append hx.1)))]

/-! Part 4: every component of the scratch state is insensitive to the
order of the cards. -/

lemma bucketAdd_counts {z1 z2 : St} (h1 : z1.ranks = z2.ranks)
    (h2 : z1.dupes = z2.dupes) (h3 : z1.rankBits = z2.rankBits) (r : Nat) :
    (bucketAdd z1 r).ranks = (bucketAdd z2 r).ranks ∧
    (bucketAdd z1 r).dupes = (bucketAdd z2 r).dupes ∧
    (bucketAdd z1 r).rankBits = (bucketAdd z2 r).rankBits := by
  refine ⟨?_, ?_, ?_⟩
  · rw [bucketAdd_ranks, bucketAdd_ranks, h1]
  · rw [bucketAdd_dupes, bucketAdd_dupes, h1, h2]
  · rw [bucketAdd_rankBits, bucketAdd_rankBits, h1, h3]

/-- The first pass changes the three counting arrays exactly as the bare
`bucketAdd` fold does: the interleaved straight bookkeeping never reads
them. -/
lemma pass1_counts :
    ∀ (c : List Card) (z1 z2 : St), z1.ranks = z2.ranks → z1.dupes = z2.dupes →
    z1.rankBits = z2.rankBits →
    (c.foldl step1 z1).ranks =
        (c.foldl (fun s ci => bucketAdd s (rawr1Of ci)) z2).ranks ∧
    (c.foldl step1 z1).dupes =
        (c.foldl (fun s ci => bucketAdd s (rawr1Of ci)) z2).dupes ∧
    (c.foldl step1 z1).rankBits =
        (c.foldl (fun s ci => bucketAdd s (rawr1Of ci)) z2).rankBits := by
  intro c
  induction c with
  | nil => intro z1 z2 h1 h2 h3; exact ⟨h1, h2, h3⟩
  | cons ci c ih =>
    intro z1 z2 h1 h2 h3
    rw [List.foldl_cons, List.foldl_cons]
    have h := bucketAdd_counts h1 h2 h3 (rawr1Of ci)
    exact ih (step1 z1 ci) (bucketAdd z2 (rawr1Of ci)) h.1 h.2.1 h.2.2

lemma perm_any {α : Type} {c c' : List α} (h : c.Perm c') (f : α → Bool) :
    c.any f = c'.any f := by
  induction h with
  | nil => rfl
  | cons x _ ih => rw [List.any_cons, List.any_cons, ih]
  | swap x y l =>
    rw [List.any_cons, List.any_cons, List.any_cons, List.any_cons,
      ← Bool.or_assoc, Bool.or_comm (f y) (f x), Bool.or_assoc]
  | trans _ _ ih1 ih2 => exact ih1.trans ih2

lemma isFlush_iff (c : List Card) :
    isFlush c = true ↔ ∀ x ∈ c, ∀ y ∈ c, cardSuit x = cardSuit y := by
  cases c with
  | nil => simp [isFlush]
  | cons a l =>
    simp only [isFlush, List.all_eq_true, beq_iff_eq]
    constructor
    · intro hall x hx y hy
      have key : ∀ z ∈ a :: l, cardSuit z = cardSuit a := by
        intro z hz
        rcases List.mem_cons.mp hz with rfl | hz
        · rfl
        · exact hall z hz
      rw [key x hx, key y hy]
    · intro hp y hy
      exact hp y (List.mem_cons_of_mem _ hy) a (List.mem_cons_self _ _)

lemma isFlush_perm {c c' : List Card} (h : c.Perm c') : isFlush c = isFlush c' := by
  by_cases hb : isFlush c = true
  · rw [hb]
    symm
    rw [isFlush_iff]
    intro x hx y hy
    exact (isFlush_iff c).mp hb x (h.mem_iff.mpr hx) y (h.mem_iff.mpr hy)
  · have hb' : ¬isFlush c' = true := by
      intro hh
      apply hb
      rw [isFlush_iff]
      intro x hx y hy
      exact (isFlush_iff c').mp hh x (h.mem_iff.mp hx) y (h.mem_iff.mp hy)
    rw [Bool.not_eq_true] at hb hb'
    rw [hb, hb']

lemma completeW_perm {c c' : List Card} (h : c.Perm c') (idx : Nat) :
    completeW c idx ↔ completeW c' idx := by
  constructor <;> intro hc b hb
  · obtain ⟨ci, hm, he⟩ := hc b hb
    exact ⟨ci, h.mem_iff.mp hm, he⟩
  · obtain ⟨ci, hm, he⟩ := hc b hb
    exact ⟨ci, h.mem_iff.mpr hm, he⟩

lemma specTop_perm {c c' : List Card} (h : c.Perm c') : specTop c = specTop c' := by
  unfold specTop
  have hfun : (fun (acc idx : Nat) =>
      if completeW c idx ∧ 5 ≤ idx then (idx + 12) % 13 + 1 else acc) =
      fun (acc idx : Nat) =>
      if completeW c' idx ∧ 5 ≤ idx then (idx + 12) % 13 + 1 else acc := by
    funext acc idx
    by_cases hif : completeW c idx ∧ 5 ≤ idx
    · rw [if_pos hif, if_pos ⟨(completeW_perm h idx).mp hif.1, hif.2⟩]
    · rw [if_neg hif, if_neg fun hx => hif ⟨(completeW_perm h idx).mpr hx.1, hx.2⟩]
  rw [hfun]

lemma pass1_str8s_perm {c c' : List Card} (h : c.Perm c') :
    (c.foldl step1 st0).str8s = (c'.foldl step1 st0).str8s := by
  funext idx
  apply Nat.eq_of_testBit_eq
  intro b
  rw [pass1_str8s, pass1_str8s]
  congr 1
  rw [decide_eq_decide]
  constructor <;> rintro ⟨ci, hm, hb, he⟩
  · exact ⟨ci, h.mem_iff.mp hm, hb, he⟩
  · exact ⟨ci, h.mem_iff.mpr hm, hb, he⟩

/-- The whole scratch state after both passes is insensitive to the order
of the hand's cards. -/
lemma classifyState_perm {c c' : List Card} (h : c.Perm c') (hlen : c.length ≤ 5)
    (hval : ∀ ci ∈ c, ci < 52) : classifyState c = classifyState c' := by
  have hlen' : c'.length ≤ 5 := h.length_eq ▸ hlen
  have hval' : ∀ ci ∈ c', ci < 52 := fun ci hi => hval ci (h.mem_iff.mpr hi)
  have hc := pass1_counts c st0 st0 rfl rfl rfl
  have hc' := pass1_counts c' st0 st0 rfl rfl rfl
  have hcf := countFold_perm rawr1Of h st0
  have hranks : (c.foldl step1 st0).ranks = (c'.foldl step1 st0).ranks := by
    rw [hc.1, hc'.1, hcf]
  have hdupes : (c.foldl step1 st0).dupes = (c'.foldl step1 st0).dupes := by
    rw [hc.2.1, hc'.2.1, hcf]
  have hrb : (c.foldl step1 st0).rankBits = (c'.foldl step1 st0).rankBits := by
    rw [hc.2.2, hc'.2.2, hcf]
  have hstr8s := pass1_str8s_perm h
  have hstr8top : (c.foldl step1 st0).str8top = (c'.foldl step1 st0).str8top := by
    rw [pass1_str8top c hlen hval, pass1_str8top c' hlen' hval', specTop_perm h]
  have hs1 : c.foldl step1 st0 = c'.foldl step1 st0 :=
    St.ext hranks hdupes hrb hstr8s hstr8top
  unfold classifyState
  rw [hs1, perm_any h fun ci => cardRank ci == 1,
    countFold_perm rawr2Of h (resetCounts (c'.foldl step1 st0))]

/-- `evalSlow27` is insensitive to the order of the hand's cards. -/
lemma evalSlow27_perm {c c' : List Card} (h : c.Perm c') (hlen : c.length = 5)
    (hval : ∀ ci ∈ c, ci < 52) (replace : Bool) :
    evalSlow27 c replace = evalSlow27 c' replace := by
  unfold evalSlow27
  rw [classifyState_perm h (by omega) hval, isFlush_perm h, h.length_eq]

/-! Part 5: sorting is insensitive to the order of the cards, and the
claimed theorem. -/

/-- The Ace-high sort key the Go comparator orders by (descending). -/
def sortKey (c : Card) : Nat := crOf c * 4 + cardSuit c

lemma cardBefore_iff (a b : Card) : cardBefore a b = true ↔ sortKey b < sortKey a := by
  have hsa : cardSuit a < 4 := Nat.mod_lt _ (by norm_num)
  have hsb : cardSuit b < 4 := Nat.mod_lt _ (by norm_num)
  unfold cardBefore sortKey crOf
  simp only []
  split_ifs <;> rw [decide_eq_true_eq] <;> omega

lemma insertCard_perm (a : Card) (l : List Card) : (insertCard a l).Perm (a :: l) := by
  induction l with
  | nil => exact List.Perm.refl _
  | cons b l ih =>
    unfold insertCard
    by_cases hb : cardBefore b a
    · rw [if_pos hb]
      exact (ih.cons b).trans (List.Perm.swap a b l)
    · rw [if_neg hb]

lemma SortCards_perm (l : List Card) : (SortCards l).Perm l := by
  unfold SortCards
  induction l with
  | nil => exact List.Perm.refl _
  | cons a l ih =>
    rw [List.foldr_cons]
    exact (insertCard_perm a _).trans (ih.cons a)

lemma sorted_insertCard {l : List Card} (a : Card)
    (hs : l.Pairwise fun x y => sortKey y ≤ sortKey x) :
    (insertCard a l).Pairwise fun x y => sortKey y ≤ sortKey x := by
  induction l with
  | nil => simp [insertCard]
  | cons b l ih =>
    obtain ⟨hhead, htail⟩ := List.pairwise_cons.mp hs
    unfold insertCard
    by_cases hb : cardBefore b a
    · rw [if_pos hb]
      rw [List.pairwise_cons]
      refine ⟨?_, ih htail⟩
      intro y hy
      rcases List.mem_cons.mp ((insertCard_perm a l).mem_iff.mp hy) with rfl | hyl
      · exact le_of_lt ((cardBefore_iff b y).mp hb)
      · exact hhead y hyl
    · rw [if_neg hb]
      rw [List.pairwise_cons]
      have hba : sortKey b ≤ sortKey a := by
        have := (cardBefore_iff b a).not.mp (by simpa using hb)
        omega
      refine ⟨?_, hs⟩
      intro y hy
      rcases List.mem_cons.mp hy with rfl | hyl
      · exact hba
      · exact le_trans (hhead y hyl) hba

lemma SortCards_sorted (l : List Card) :
    (SortCards l).Pairwise fun x y => sortKey y ≤ sortKey x := by
  unfold SortCards
  induction l with
  | nil => simp
  | cons a l ih =>
    rw [List.foldr_cons]
    exact sorted_insertCard a ih

lemma sortKey_inj {a b : Nat} (ha : a < 52) (hb : b < 52) (h : sortKey a = sortKey b) :
    a = b := by
  unfold sortKey crOf cardRank cardSuit at h
  split_ifs at h <;> omega

/-- Two sorted lists of valid cards that are permutations of each other are
equal: the sort key is injective below 52. -/
lemma sorted_perm_eq :
    ∀ l₁ l₂ : List Card, l₁.Perm l₂ →
      l₁.Pairwise (fun x y => sortKey y ≤ sortKey x) →
      l₂.Pairwise (fun x y => sortKey y ≤ sortKey x) →
      (∀ x ∈ l₁, x < 52) → l₁ = l₂ := by
  intro l₁
  induction l₁ with
  | nil =>
    intro l₂ h _ _ _
    exact (List.Perm.eq_nil h.symm).symm
  | cons a l₁ ih =>
    intro l₂ h hs1 hs2 hval
    cases l₂ with
    | nil =>
      have := h.length_eq
      simp at this
    | cons b l₂ =>
      have hab : a = b := by
        have haIn : a ∈ b :: l₂ := h.mem_iff.mp (List.mem_cons_self _ _)
        have hbIn : b ∈ a :: l₁ := h.mem_iff.mpr (List.mem_cons_self _ _)
        rcases List.mem_cons.mp haIn with h1 | h1
        · exact h1
        rcases List.mem_cons.mp hbIn with h2 | h2
        · exact h2.symm
        have hRba : sortKey a ≤ sortKey b := (List.pairwise_cons.mp hs2).1 a h1
        have hRab : sortKey b ≤ sortKey a := (List.pairwise_cons.mp hs1).1 b h2
        have hb52 : b < 52 := hval b (List.mem_cons_of_mem _ h2)
        exact sortKey_inj (hval a (List.mem_cons_self _ _)) hb52
          (Nat.le_antisymm hRab hRba).symm
      subst hab
      have htail := ih l₂ h.cons_inv (List.pairwise_cons.mp hs1).2
        (List.pairwise_cons.mp hs2).2
        fun x hx => hval x (List.mem_cons_of_mem _ hx)
      rw [htail]

/-- Sorting gives the same result on any two orderings of a valid hand. -/
lemma SortCards_perm_eq {l l' : List Card} (h : l.Perm l')
    (hval : ∀ x ∈ l, x < 52) : SortCards l = SortCards l' :=
  sorted_perm_eq _ _
    ((SortCards_perm l).trans (h.trans (SortCards_perm l').symm))
    (SortCards_sorted l) (SortCards_sorted l')
    fun x hx => hval x ((SortCards_perm l).mem_iff.mp hx)

/-- C7: `Eval27` and `Eval27Fast` are deterministic and order-insensitive.
In this embedding both are pure functions of the (explicit) table state and
the hand, so repeated calls trivially agree; the content proved here is
order-insensitivity: for every 5-card hand of valid cards and every
permutation of it, the fast lookup (under any table) and `Eval27` (under
any table state and packing array) return identical scores. -/
theorem c7_order_insensitive (tbl : Option (Nat → Int)) (pack : Nat → Int)
    (h h' : List Card) (hperm : h'.Perm h) (hlen : h.length = 5)
    (hval : ∀ ci ∈ h, ci < 52) :
    (∀ t : Nat → Int, Eval27FastWith t h' = Eval27FastWith t h) ∧
    Eval27 tbl pack h' = Eval27 tbl pack h := by
  have hval' : ∀ ci ∈ h', ci < 52 := fun ci hi => hval ci (hperm.mem_iff.mp hi)
  have hsort : SortCards h' = SortCards h := SortCards_perm_eq hperm hval'
  have hslow : evalSlow27 h' true = evalSlow27 h true :=
    evalSlow27_perm hperm (hperm.length_eq.trans hlen) hval' true
  constructor
  · intro t
    unfold Eval27FastWith
    rw [hsort]
  · cases tbl with
    | some t =>
      show Eval27FastWith t h' = Eval27FastWith t h
      unfold Eval27FastWith
      rw [hsort]
    | none =>
      show (match evalSlow27 h' true with
        | .error _ => 0
        | .ok ev => pack ev.rank) = (match evalSlow27 h true with
        | .error _ => 0
        | .ok ev => pack ev.rank)
      rw [hslow]

/-- Witness for C7: the wheel hand `DA H2 C3 S4 H5` and its reversal. -/
theorem c7_order_insensitive_witness :
    (∀ t : Nat → Int,
      Eval27FastWith t [18, 15, 8, 6, 1] = Eval27FastWith t [1, 6, 8, 15, 18]) ∧
    Eval27 none (fun n => (n : Int)) [18, 15, 8, 6, 1] =
      Eval27 none (fun n => (n : Int)) [1, 6, 8, 15, 18] :=
  c7_order_insensitive none (fun n => (n : Int)) [1, 6, 8, 15, 18]
    [18, 15, 8, 6, 1] (by decide) (by decide) (by decide)

end Poker
